import Mathlib

/-!
# Verification of the `auto_sub_pro` subtitle core

Shallow embedding of the subtitle-burning core of the repository:

* `src/utils/srtParser.ts` — `parseSRTTime`, `formatSRTTime`;
* `src/utils/videoProcessor.ts` — the active-cue lookup inside `burnSubtitles`,
  the progress computation, `wrapText`, `drawSubtitleOnCanvas`, and the
  event-driven skeleton of `burnSubtitles` itself.

JavaScript strings are embedded as `List Char`, JavaScript numbers as `ℚ`
(all arithmetic relevant to the verified properties is exact at this scale),
with `NaN` represented by `none` in an `Option ℚ` result.  `Math.floor` is
`Int.floor`, `Math.round` is Mathlib's `round` (both round halves toward
`+∞`, like JavaScript), and the JS `%` operator is `jsMod` below.
-/

set_option autoImplicit false

/-! ## JavaScript string primitives -/

/-- `s.split(c)` for a single-character separator, as in JavaScript:
`"".split(c) = [""]`, and every separator occurrence starts a new field. -/
def splitOnChar (sep : Char) : List Char → List (List Char)
  | [] => [[]]
  | c :: cs =>
    if c = sep then [] :: splitOnChar sep cs
    else
      match splitOnChar sep cs with
      | [] => [[c]]
      | p :: ps => (c :: p) :: ps

/-- `s.replace(',', '.')` — JavaScript `replace` with a string pattern
replaces only the first occurrence. -/
def replaceFirstComma : List Char → List Char
  | [] => []
  | c :: cs => if c = ',' then '.' :: cs else c :: replaceFirstComma cs

/-- ASCII decimal digit test (the digits accepted by `parseInt(_, 10)`). -/
def isDigitChar (c : Char) : Bool := 48 ≤ c.toNat && c.toNat ≤ 57

/-- Whitespace skipped by `parseInt` before the number. -/
def isWsChar (c : Char) : Bool := c = ' ' || c = '\t' || c = '\n' || c = '\r'

/-- Numeric value of a string of decimal digits, most significant first
(the accumulation performed by `parseInt`). -/
def digitsToNat (ds : List Char) : ℕ := ds.foldl (fun a c => 10 * a + (c.toNat - 48)) 0

/-- Value of the leading run of decimal digits; `none` when there is none
(`parseInt` returns `NaN` in that case). -/
def parseDigits (cs : List Char) : Option ℕ :=
  let ds := cs.takeWhile isDigitChar
  if ds = [] then none else some (digitsToNat ds)

/-- JavaScript `parseInt(s, 10)`: skip leading whitespace, read an optional
sign and then the longest run of decimal digits; `NaN` (here `none`) if no
digit follows. -/
def parseIntJS (s : List Char) : Option ℤ :=
  let t := s.dropWhile isWsChar
  if t.head? = some '-' then (parseDigits t.tail).map (fun n => -(n : ℤ))
  else if t.head? = some '+' then (parseDigits t.tail).map (fun n => (n : ℤ))
  else (parseDigits t).map (fun n => (n : ℤ))

/-- The decimal digit characters used by `Number.prototype.toString`. -/
def digitChar : ℕ → Char
  | 0 => '0' | 1 => '1' | 2 => '2' | 3 => '3' | 4 => '4'
  | 5 => '5' | 6 => '6' | 7 => '7' | 8 => '8' | 9 => '9'
  | _ => '?'

/-- Fuel-driven decimal printing of a natural number (the fuel is an upper
bound on the number, so it never runs out). -/
def natCharsGo : ℕ → ℕ → List Char
  | 0, _ => []
  | fuel + 1, n =>
    if n < 10 then [digitChar n]
    else natCharsGo fuel (n / 10) ++ [digitChar (n % 10)]

/-- Decimal representation of a natural number, as `Number.prototype.toString`
produces it for integral values. -/
def natChars (n : ℕ) : List Char := natCharsGo (n + 1) n

/-- `Number.prototype.toString` for integral values, negatives included. -/
def intChars (i : ℤ) : List Char :=
  if i < 0 then '-' :: natChars i.natAbs else natChars i.toNat

/-- `s.padStart(size, '0')`. -/
def padStart (s : List Char) (size : ℕ) : List Char :=
  List.replicate (size - s.length) '0' ++ s

/-- The `pad` helper of `formatSRTTime`: `num.toString().padStart(size, '0')`. -/
def padInt (i : ℤ) (size : ℕ) : List Char := padStart (intChars i) size

/-! ## JavaScript numeric primitives -/

/-- Truncation toward zero, as JavaScript division-based remainders use. -/
def ratTrunc (q : ℚ) : ℤ := if 0 ≤ q then ⌊q⌋ else -⌊-q⌋

/-- The JavaScript `%` operator on finite numbers: remainder with the sign
of the dividend. -/
def jsMod (a b : ℚ) : ℚ := a - b * ratTrunc (a / b)

/-! ## `src/utils/srtParser.ts` -/

/-- `parseSRTTime` (src/utils/srtParser.ts, lines 4–31).  Result `none`
models a `NaN` return value; any `some` is an ordinary number. -/
def parseSRTTime (timeString : List Char) : Option ℚ :=
  if timeString = [] then some 0
  else
    let normalizedTime := replaceFirstComma timeString
    match splitOnChar ':' normalizedTime with
    | [p0, p1, p2] =>
      let hours := parseIntJS p0
      let minutes := parseIntJS p1
      let secondsParts := splitOnChar '.' p2
      let seconds :=
        match secondsParts with
        | s0 :: _ => parseIntJS s0
        | [] => none
      let msField :=
        match secondsParts.get? 1 with
        | some f => if f = [] then ['0'] else f
        | none => ['0']
      let milliseconds := parseIntJS msField
      match hours, minutes, seconds, milliseconds with
      | some h, some m, some s, some ms =>
        some ((h : ℚ) * 3600 + (m : ℚ) * 60 + (s : ℚ) + (ms : ℚ) / 1000)
      | _, _, _, _ => none
    | [p0, p1] =>
      let minutes := parseIntJS p0
      let secondsParts := splitOnChar '.' p1
      let seconds :=
        match secondsParts with
        | s0 :: _ => parseIntJS s0
        | [] => none
      let msField :=
        match secondsParts.get? 1 with
        | some f => if f = [] then ['0'] else f
        | none => ['0']
      let milliseconds := parseIntJS msField
      match minutes, seconds, milliseconds with
      | some m, some s, some ms =>
        some ((m : ℚ) * 60 + (s : ℚ) + (ms : ℚ) / 1000)
      | _, _, _ => none
    | _ => some 0

/-- `formatSRTTime` (src/utils/srtParser.ts, lines 34–43). -/
def formatSRTTime (totalSeconds : ℚ) : List Char :=
  padInt ⌊totalSeconds / 3600⌋ 2
    ++ ':' :: padInt ⌊jsMod totalSeconds 3600 / 60⌋ 2
    ++ ':' :: padInt ⌊jsMod totalSeconds 60⌋ 2
    ++ ',' :: padInt (round (jsMod totalSeconds 1 * 1000)) 3

/-! ## `src/utils/videoProcessor.ts` — cue lookup and progress -/

/-- One subtitle cue, with the fields `burnSubtitles` reads. -/
structure SubtitleCue where
  id : String
  startTime : ℚ
  endTime : ℚ
  text : List Char
deriving DecidableEq

/-- The active-cue lookup of `burnSubtitles` (src/utils/videoProcessor.ts,
line 74): `cues.find(c => currentTime >= c.startTime && currentTime <= c.endTime)`. -/
def findActiveCue (cues : List SubtitleCue) (currentTime : ℚ) : Option SubtitleCue :=
  cues.find? fun c => decide (currentTime ≥ c.startTime) && decide (currentTime ≤ c.endTime)

/-- The per-frame progress computation of `burnSubtitles`
(src/utils/videoProcessor.ts, line 80):
`Math.min(100, Math.round((currentTime / video.duration) * 100))`. -/
def progressValue (currentTime duration : ℚ) : ℤ :=
  min 100 (round (currentTime / duration * 100))

/-- Modelled from the spec: the spec's formula
`clamp(round(queryTime / totalDuration × 100), 0, 100)`, stated for
comparison with `progressValue`. -/
def progressSpec (currentTime duration : ℚ) : ℤ :=
  max 0 (min 100 (round (currentTime / duration * 100)))

/-! ## `src/utils/videoProcessor.ts` — text wrapping -/

/-- The inner loop of `wrapText` (src/utils/videoProcessor.ts, lines 213–224):
`currentLine` starts at `words[0]`; each further word is appended when the
candidate line measures under `maxWidth`, otherwise the line is pushed and the
word starts the next line; the pending line is pushed at the end.  `measure`
abstracts `ctx.measureText(·).width` at the current font. -/
def wrapWords (measure : List Char → ℚ) (maxWidth : ℚ) :
    List Char → List (List Char) → List (List Char)
  | currentLine, [] => [currentLine]
  | currentLine, word :: ws =>
    if measure (currentLine ++ ' ' :: word) < maxWidth then
      wrapWords measure maxWidth (currentLine ++ ' ' :: word) ws
    else
      currentLine :: wrapWords measure maxWidth word ws

/-- One paragraph's contribution to `wrapText`: the paragraph is split on
single spaces and the words are packed greedily. -/
def wrapParagraph (measure : List Char → ℚ) (maxWidth : ℚ) (paragraph : List Char) :
    List (List Char) :=
  match splitOnChar ' ' paragraph with
  | [] => []
  | w :: ws => wrapWords measure maxWidth w ws

/-- `wrapText` (src/utils/videoProcessor.ts, lines 207–228): the text is split
on line breaks, and each paragraph is wrapped independently, all lines pushed
into one output list. -/
def wrapText (measure : List Char → ℚ) (text : List Char) (maxWidth : ℚ) :
    List (List Char) :=
  (splitOnChar '\n' text).flatMap (wrapParagraph measure maxWidth)

/-! ## `src/utils/videoProcessor.ts` — subtitle painting -/

/-- Style record, with the fields `drawSubtitleOnCanvas` reads. -/
structure SubtitleStyle where
  fontSize : ℚ
  fontFamily : String
  color : String
  backgroundColor : String
  position : ℚ
  textShadow : String
deriving DecidableEq

/-- Drawing commands issued against the canvas context while painting one
subtitle.  Fill/stroke colors and shadow parameters are context state, not
arguments of these calls, and are abstracted away. -/
inductive CanvasOp where
  | fillRect (x y w h : ℚ)
  | strokeTextOp (s : List Char) (x y : ℚ)
  | fillTextOp (s : List Char) (x y : ℚ)
deriving DecidableEq

/-- JavaScript `hay.includes(pat)` (substring containment). -/
def containsSub (hay pat : List Char) : Bool :=
  hay.tails.any fun t => pat.isPrefixOf t

/-- `drawSubtitleOnCanvas` (src/utils/videoProcessor.ts, lines 104–205) as the
list of drawing commands it issues, in order.  `measure` abstracts
`ctx.measureText(·).width` after the font assignment on line 117. -/
def drawSubtitleOnCanvas (measure : List Char → ℚ) (text : List Char)
    (style : SubtitleStyle) (width height : ℚ) : List CanvasOp :=
  let scale := height / 600
  let fontSize := style.fontSize * scale
  let x := width / 2
  let y := height * (1 - style.position / 100)
  let maxWidth := width * 0.8
  let lineHeight := fontSize * 1.25
  let lines := wrapText measure text maxWidth
  let bgOps : List CanvasOp :=
    if style.backgroundColor ≠ "transparent" then
      let maxLineWidth :=
        lines.foldl (fun m line => if measure line > m then measure line else m) 0
      let paddingX := fontSize * 0.6
      let paddingY := fontSize * 0.3
      let boxWidth := maxLineWidth + paddingX * 2
      let boxHeight := (lines.length : ℚ) * lineHeight + paddingY * 2
      let boxX := x - boxWidth / 2
      let boxBottom := y + fontSize * 0.2
      let boxTop := boxBottom - boxHeight
      [CanvasOp.fillRect boxX boxTop boxWidth boxHeight]
    else []
  -- Effect selection, lines 171–187: glow and drop shadow leave the stroke
  -- disabled; only the outline branch arms `strokeStyle`/`lineWidth`.
  let isGlow := containsSub style.textShadow.toList "0 0 5px".toList
  let isDropShadow := containsSub style.textShadow.toList "2px 2px".toList
  let isOutline := containsSub style.textShadow.toList "-1px -1px".toList
  let strokeOn : Bool :=
    if isGlow then false
    else if isDropShadow then false
    else isOutline && decide ((3 : ℚ) * scale > 0)
  let textOps : List CanvasOp :=
    lines.reverse.enum.flatMap fun p =>
      let lineY := y - (p.1 : ℚ) * lineHeight
      (if strokeOn then [CanvasOp.strokeTextOp p.2 x lineY] else [])
        ++ [CanvasOp.fillTextOp p.2 x lineY]
  bgOps ++ textOps

/-! ## `src/utils/videoProcessor.ts` — the `burnSubtitles` event skeleton

`burnSubtitles` wires three handlers onto the source `<video>` element:
`onloadedmetadata` (sizes the canvas, builds the `MediaRecorder`, starts
recording and playback), `onended` (stops the recorder after a flush delay)
and `onerror` (rejects the returned promise).  The environment delivers these
events in some order; a promise settles at most once, so later rejections are
not surfaced to the caller. -/

/-- Events the media source can deliver to `burnSubtitles`' handlers. -/
inductive BurnEvent where
  | loadedMetadata (videoWidth videoHeight duration : ℚ)
  | playbackError
  | ended
deriving DecidableEq

/-- `true` exactly on `loadedMetadata` events. -/
def isMetadataEvent : BurnEvent → Bool
  | BurnEvent.loadedMetadata _ _ _ => true
  | _ => false

/-- Observable state of one `burnSubtitles` invocation. -/
structure BurnState where
  recorderInited : Bool
  recording : Bool
  settled : Bool
  failures : ℕ
deriving DecidableEq

/-- State at invocation time: no recorder, promise pending. -/
def initialBurnState : BurnState :=
  { recorderInited := false, recording := false, settled := false, failures := 0 }

/-- Effect of one source event, following the handlers installed by
`burnSubtitles` (src/utils/videoProcessor.ts, lines 27–100). -/
def burnStep (st : BurnState) (e : BurnEvent) : BurnState :=
  match e with
  | BurnEvent.loadedMetadata _ _ _ =>
    -- onloadedmetadata: create the MediaRecorder, start it, start playback
    { st with recorderInited := true, recording := true }
  | BurnEvent.playbackError =>
    -- onerror: reject the promise; a settled promise ignores the rejection
    if st.settled then st
    else { st with settled := true, failures := st.failures + 1 }
  | BurnEvent.ended =>
    -- onended: stop the recorder when one is running
    if st.recorderInited then { st with recording := false } else st

/-- Run one `burnSubtitles` invocation against a sequence of source events. -/
def burnRun (events : List BurnEvent) : BurnState :=
  events.foldl burnStep initialBurnState

/-! ## Lemmas about the string primitives -/

theorem splitOnChar_ne_nil (sep : Char) (l : List Char) : splitOnChar sep l ≠ [] := by
  cases l with
  | nil => simp [splitOnChar]
  | cons c cs =>
    unfold splitOnChar
    split
    · simp
    · split <;> simp

theorem splitOnChar_cons_sep (sep : Char) (cs : List Char) :
    splitOnChar sep (sep :: cs) = [] :: splitOnChar sep cs := by
  simp [splitOnChar]

theorem splitOnChar_cons_ne {sep c : Char} (cs : List Char) (h : c ≠ sep)
    {p : List Char} {ps : List (List Char)} (hcs : splitOnChar sep cs = p :: ps) :
    splitOnChar sep (c :: cs) = (c :: p) :: ps := by
  unfold splitOnChar
  rw [if_neg h, hcs]

theorem splitOnChar_append (sep : Char) (as bs : List Char) :
    splitOnChar sep (as ++ sep :: bs) = splitOnChar sep as ++ splitOnChar sep bs := by
  induction as with
  | nil => simp [splitOnChar_cons_sep, splitOnChar]
  | cons a as ih =>
    by_cases ha : a = sep
    · subst ha
      rw [List.cons_append, splitOnChar_cons_sep, splitOnChar_cons_sep, ih, List.cons_append]
    · obtain ⟨p, ps, hps⟩ := List.exists_cons_of_ne_nil (splitOnChar_ne_nil sep as)
      rw [List.cons_append, splitOnChar_cons_ne (as ++ sep :: bs) ha (by rw [ih, hps]; rfl),
        splitOnChar_cons_ne as ha hps, List.cons_append]
      rfl

theorem splitOnChar_eq_single {sep : Char} {as : List Char} (h : sep ∉ as) :
    splitOnChar sep as = [as] := by
  induction as with
  | nil => rfl
  | cons a as ih =>
    have ha : a ≠ sep := fun hc => h (hc ▸ List.mem_cons_self a as)
    have has : sep ∉ as := fun hc => h (List.mem_cons_of_mem a hc)
    rw [splitOnChar_cons_ne as ha (ih has)]

theorem not_mem_of_mem_splitOnChar {sep : Char} {l p : List Char}
    (hp : p ∈ splitOnChar sep l) : sep ∉ p := by
  induction l generalizing p with
  | nil =>
    simp [splitOnChar] at hp
    simp [hp]
  | cons c cs ih =>
    by_cases hc : c = sep
    · subst hc
      rw [splitOnChar_cons_sep] at hp
      rcases List.mem_cons.mp hp with h | h
      · simp [h]
      · exact ih h
    · obtain ⟨q, qs, hqs⟩ := List.exists_cons_of_ne_nil (splitOnChar_ne_nil sep cs)
      rw [splitOnChar_cons_ne cs hc hqs] at hp
      rcases List.mem_cons.mp hp with h | h
      · subst h
        have hq : sep ∉ q := ih (hqs ▸ List.mem_cons_self q qs)
        simp [List.mem_cons, hq]
        exact fun hcs => hc hcs.symm
      · exact ih (hqs ▸ List.mem_cons_of_mem q h)

theorem replaceFirstComma_append {as : List Char} (bs : List Char) (h : ',' ∉ as) :
    replaceFirstComma (as ++ ',' :: bs) = as ++ '.' :: bs := by
  induction as with
  | nil => simp [replaceFirstComma]
  | cons a as ih =>
    have ha : a ≠ ',' := fun hc => h (hc ▸ List.mem_cons_self a as)
    have has : ',' ∉ as := fun hc => h (List.mem_cons_of_mem a hc)
    rw [List.cons_append, replaceFirstComma, if_neg ha, ih has, List.cons_append]

/-! ## Lemmas about decimal printing and `parseInt` -/

theorem digitChar_isDigit {d : ℕ} (h : d < 10) : isDigitChar (digitChar d) = true := by
  interval_cases d <;> decide

theorem digitChar_toNat {d : ℕ} (h : d < 10) : (digitChar d).toNat = 48 + d := by
  interval_cases d <;> decide

theorem natCharsGo_ne_nil {fuel n : ℕ} (h : n < fuel) : natCharsGo fuel n ≠ [] := by
  cases fuel with
  | zero => omega
  | succ fuel =>
    unfold natCharsGo
    split <;> simp

theorem mem_natCharsGo_isDigit {fuel : ℕ} :
    ∀ {n : ℕ}, n < fuel → ∀ c ∈ natCharsGo fuel n, isDigitChar c = true := by
  induction fuel with
  | zero => omega
  | succ fuel ih =>
    intro n hn c hc
    unfold natCharsGo at hc
    split at hc
    · rename_i h10
      simp at hc
      exact hc ▸ digitChar_isDigit h10
    · rename_i h10
      have hdiv : n / 10 < n := Nat.div_lt_self (by omega) (by norm_num)
      rcases List.mem_append.mp hc with h1 | h2
      · exact ih (by omega) c h1
      · simp at h2
        exact h2 ▸ digitChar_isDigit (Nat.mod_lt _ (by norm_num))

theorem digitsToNat_append_singleton (as : List Char) (c : Char) :
    digitsToNat (as ++ [c]) = 10 * digitsToNat as + (c.toNat - 48) := by
  unfold digitsToNat
  rw [List.foldl_append]
  rfl

theorem digitsToNat_natCharsGo {fuel : ℕ} :
    ∀ {n : ℕ}, n < fuel → digitsToNat (natCharsGo fuel n) = n := by
  induction fuel with
  | zero => omega
  | succ fuel ih =>
    intro n hn
    unfold natCharsGo
    split
    · rename_i h10
      unfold digitsToNat
      simp [List.foldl_cons, digitChar_toNat h10]
    · rename_i h10
      have hdiv : n / 10 < n := Nat.div_lt_self (by omega) (by norm_num)
      rw [digitsToNat_append_singleton, ih (by omega),
        digitChar_toNat (Nat.mod_lt _ (by norm_num))]
      omega

theorem length_natCharsGo_le {fuel : ℕ} :
    ∀ {n k : ℕ}, n < fuel → 0 < k → n < 10 ^ k → (natCharsGo fuel n).length ≤ k := by
  induction fuel with
  | zero => omega
  | succ fuel ih =>
    intro n k hn hk hnk
    unfold natCharsGo
    split
    · simpa using hk
    · rename_i h10
      have hdiv : n / 10 < n := Nat.div_lt_self (by omega) (by norm_num)
      have hk2 : 2 ≤ k := by
        by_contra hcon
        interval_cases k
        · simp at hnk
          omega
      have hdivk : n / 10 < 10 ^ (k - 1) := by
        rw [Nat.div_lt_iff_lt_mul (by norm_num : 0 < 10)]
        calc n < 10 ^ k := hnk
        _ = 10 ^ (k - 1) * 10 := by
              rw [← pow_succ]
              congr 1
              omega
      have := ih (n := n / 10) (k := k - 1) (by omega) (by omega) hdivk
      simp only [List.length_append, List.length_cons, List.length_nil]
      omega

theorem natChars_ne_nil (n : ℕ) : natChars n ≠ [] := natCharsGo_ne_nil (Nat.lt_succ_self n)

theorem mem_natChars_isDigit {n : ℕ} {c : Char} (hc : c ∈ natChars n) :
    isDigitChar c = true := mem_natCharsGo_isDigit (Nat.lt_succ_self n) c hc

theorem digitsToNat_natChars (n : ℕ) : digitsToNat (natChars n) = n :=
  digitsToNat_natCharsGo (Nat.lt_succ_self n)

theorem length_natChars_le {n k : ℕ} (hk : 0 < k) (hnk : n < 10 ^ k) :
    (natChars n).length ≤ k := length_natCharsGo_le (Nat.lt_succ_self n) hk hnk

theorem isDigitChar_not_ws {c : Char} (h : isDigitChar c = true) : isWsChar c = false := by
  unfold isDigitChar at h
  unfold isWsChar
  simp only [Bool.or_eq_false_iff, decide_eq_false_iff_not]
  refine ⟨⟨⟨?_, ?_⟩, ?_⟩, ?_⟩ <;> rintro rfl <;> simp_all

theorem takeWhile_all {p : Char → Bool} {l : List Char} (h : ∀ c ∈ l, p c = true) :
    l.takeWhile p = l := by
  induction l with
  | nil => rfl
  | cons c cs ih =>
    rw [List.takeWhile_cons, h c (List.mem_cons_self c cs),
      ih fun d hd => h d (List.mem_cons_of_mem c hd)]
    simp

theorem parseIntJS_all_digits {l : List Char} (hne : l ≠ [])
    (hd : ∀ c ∈ l, isDigitChar c = true) : parseIntJS l = some ((digitsToNat l : ℕ) : ℤ) := by
  obtain ⟨c, cs, rfl⟩ := List.exists_cons_of_ne_nil hne
  have hc := hd c (List.mem_cons_self c cs)
  have hw : isWsChar c = false := isDigitChar_not_ws hc
  have hminus : c ≠ '-' := by rintro rfl; exact absurd hc (by decide)
  have hplus : c ≠ '+' := by rintro rfl; exact absurd hc (by decide)
  unfold parseIntJS
  rw [List.dropWhile_cons, hw]
  simp only [Bool.false_eq_true, if_false, List.head?_cons, Option.some.injEq]
  rw [if_neg hminus, if_neg hplus]
  unfold parseDigits
  rw [takeWhile_all hd]
  simp

theorem foldl_digit_zeros (j : ℕ) :
    (List.replicate j '0').foldl (fun a c => 10 * a + (c.toNat - 48)) 0 = 0 := by
  induction j with
  | zero => rfl
  | succ j ih =>
    rw [List.replicate_succ, List.foldl_cons]
    have h0 : 10 * 0 + ('0'.toNat - 48) = 0 := by decide
    rw [h0]
    exact ih

theorem digitsToNat_replicate_append (j : ℕ) (l : List Char) :
    digitsToNat (List.replicate j '0' ++ l) = digitsToNat l := by
  unfold digitsToNat
  rw [List.foldl_append, foldl_digit_zeros]

theorem padStart_natChars_ne_nil (n k : ℕ) : padStart (natChars n) k ≠ [] := by
  unfold padStart
  intro h
  exact natChars_ne_nil n (List.append_eq_nil.mp h).2

theorem mem_padStart_natChars_isDigit {n k : ℕ} {c : Char}
    (hc : c ∈ padStart (natChars n) k) : isDigitChar c = true := by
  unfold padStart at hc
  rcases List.mem_append.mp hc with h | h
  · rw [List.eq_of_mem_replicate h]
    decide
  · exact mem_natChars_isDigit h

theorem not_mem_of_all_digits {F : List Char} (hd : ∀ c ∈ F, isDigitChar c = true)
    {c : Char} (hc : isDigitChar c = false) : c ∉ F := by
  intro h
  rw [hd c h] at hc
  exact Bool.noConfusion hc

theorem parseIntJS_padStart_natChars (n k : ℕ) :
    parseIntJS (padStart (natChars n) k) = some ((n : ℕ) : ℤ) := by
  rw [parseIntJS_all_digits (padStart_natChars_ne_nil n k)
    fun c hc => mem_padStart_natChars_isDigit hc]
  unfold padStart
  rw [digitsToNat_replicate_append, digitsToNat_natChars]

theorem length_padStart (s : List Char) (k : ℕ) :
    (padStart s k).length = max k s.length := by
  unfold padStart
  simp only [List.length_append, List.length_replicate]
  omega

/-! ## Parsing a formatted timecode -/

theorem parseSRTTime_formatted (hn mn sn msn : ℕ) :
    parseSRTTime (padStart (natChars hn) 2
        ++ ':' :: (padStart (natChars mn) 2
        ++ ':' :: (padStart (natChars sn) 2
        ++ ',' :: padStart (natChars msn) 3)))
      = some ((hn : ℚ) * 3600 + (mn : ℚ) * 60 + (sn : ℚ) + (msn : ℚ) / 1000) := by
  set H := padStart (natChars hn) 2 with hHdef
  set M := padStart (natChars mn) 2 with hMdef
  set S := padStart (natChars sn) 2 with hSdef
  set MS := padStart (natChars msn) 3 with hMSdef
  have hHd : ∀ c ∈ H, isDigitChar c = true := fun c hc => mem_padStart_natChars_isDigit hc
  have hMd : ∀ c ∈ M, isDigitChar c = true := fun c hc => mem_padStart_natChars_isDigit hc
  have hSd : ∀ c ∈ S, isDigitChar c = true := fun c hc => mem_padStart_natChars_isDigit hc
  have hMSd : ∀ c ∈ MS, isDigitChar c = true := fun c hc => mem_padStart_natChars_isDigit hc
  have hfullne : H ++ ':' :: (M ++ ':' :: (S ++ ',' :: MS)) ≠ [] := by
    intro h
    exact padStart_natChars_ne_nil hn 2 (List.append_eq_nil.mp h).1
  have hcomma : (',' : Char) ∉ H ++ ':' :: (M ++ ':' :: S) := by
    simp only [List.mem_append, List.mem_cons]
    push_neg
    exact ⟨not_mem_of_all_digits hHd (by decide), by decide,
      not_mem_of_all_digits hMd (by decide), by decide,
      not_mem_of_all_digits hSd (by decide)⟩
  have hnorm : replaceFirstComma (H ++ ':' :: (M ++ ':' :: (S ++ ',' :: MS)))
      = H ++ ':' :: (M ++ ':' :: (S ++ '.' :: MS)) := by
    have he1 : H ++ ':' :: (M ++ ':' :: (S ++ ',' :: MS))
        = (H ++ ':' :: (M ++ ':' :: S)) ++ ',' :: MS := by
      simp [List.append_assoc]
    have he2 : (H ++ ':' :: (M ++ ':' :: S)) ++ '.' :: MS
        = H ++ ':' :: (M ++ ':' :: (S ++ '.' :: MS)) := by
      simp [List.append_assoc]
    rw [he1, replaceFirstComma_append MS hcomma, he2]
  have hSdot : splitOnChar ':' (S ++ '.' :: MS) = [S ++ '.' :: MS] := by
    refine splitOnChar_eq_single ?_
    simp only [List.mem_append, List.mem_cons]
    push_neg
    exact ⟨not_mem_of_all_digits hSd (by decide), by decide,
      not_mem_of_all_digits hMSd (by decide)⟩
  have hsplit : splitOnChar ':' (H ++ ':' :: (M ++ ':' :: (S ++ '.' :: MS)))
      = [H, M, S ++ '.' :: MS] := by
    rw [splitOnChar_append, splitOnChar_append,
      splitOnChar_eq_single (not_mem_of_all_digits hHd (by decide)),
      splitOnChar_eq_single (not_mem_of_all_digits hMd (by decide)), hSdot]
    rfl
  have hdot : splitOnChar '.' (S ++ '.' :: MS) = [S, MS] := by
    rw [splitOnChar_append,
      splitOnChar_eq_single (not_mem_of_all_digits hSd (by decide)),
      splitOnChar_eq_single (not_mem_of_all_digits hMSd (by decide))]
    rfl
  have hMSne : MS ≠ [] := padStart_natChars_ne_nil msn 3
  have hH : parseIntJS H = some (hn : ℤ) := parseIntJS_padStart_natChars hn 2
  have hM : parseIntJS M = some (mn : ℤ) := parseIntJS_padStart_natChars mn 2
  have hS : parseIntJS S = some (sn : ℤ) := parseIntJS_padStart_natChars sn 2
  have hMS : parseIntJS MS = some (msn : ℤ) := parseIntJS_padStart_natChars msn 3
  unfold parseSRTTime
  rw [if_neg hfullne, hnorm]
  simp only [hsplit, hdot, List.get?_cons_succ, List.get?_cons_zero, if_neg hMSne,
    hH, hM, hS, hMS]
  push_cast
  ring_nf

/-! ## Arithmetic facts about the formatted components -/

theorem padInt_of_nonneg {i : ℤ} (h : 0 ≤ i) (k : ℕ) :
    padInt i k = padStart (natChars i.toNat) k := by
  unfold padInt intChars
  rw [if_neg (not_lt.mpr h)]

theorem jsMod_eq_of_nonneg (x : ℚ) (y : ℚ) (hx : 0 ≤ x) (hy : 0 < y) :
    jsMod x y = x - y * ⌊x / y⌋ := by
  unfold jsMod ratTrunc
  rw [if_pos (div_nonneg hx hy.le)]

theorem jsMod_bounds (x : ℚ) (y : ℚ) (hx : 0 ≤ x) (hy : 0 < y) :
    0 ≤ jsMod x y ∧ jsMod x y < y := by
  rw [jsMod_eq_of_nonneg x y hx hy]
  constructor
  · have h1 : (⌊x / y⌋ : ℚ) ≤ x / y := Int.floor_le _
    have h2 : (⌊x / y⌋ : ℚ) * y ≤ x := (le_div_iff₀ hy).mp h1
    linarith
  · have h1 : x / y < ⌊x / y⌋ + 1 := Int.lt_floor_add_one _
    have h2 : x < ((⌊x / y⌋ : ℚ) + 1) * y := (div_lt_iff₀ hy).mp h1
    linarith

/-- The hour/minute/second/millisecond components computed by `formatSRTTime`
on a non-negative input: their ranges and how they recombine into `⌊x⌋` and
the millisecond remainder. -/
theorem formatComponents (x : ℚ) (hx : 0 ≤ x) :
    0 ≤ ⌊x / 3600⌋
    ∧ (0 ≤ ⌊jsMod x 3600 / 60⌋ ∧ ⌊jsMod x 3600 / 60⌋ < 60)
    ∧ (0 ≤ ⌊jsMod x 60⌋ ∧ ⌊jsMod x 60⌋ < 60)
    ∧ (0 ≤ round (jsMod x 1 * 1000) ∧ round (jsMod x 1 * 1000) ≤ 1000)
    ∧ ⌊x / 3600⌋ * 3600 + ⌊jsMod x 3600 / 60⌋ * 60 + ⌊jsMod x 60⌋ = ⌊x⌋
    ∧ |((round (jsMod x 1 * 1000) : ℤ) : ℚ) - (x - ⌊x⌋) * 1000| ≤ 1 / 2 := by
  have hh0 : 0 ≤ ⌊x / 3600⌋ := Int.le_floor.mpr (by positivity)
  have hm3600 := jsMod_eq_of_nonneg x 3600 hx (by norm_num)
  have hb3600 := jsMod_bounds x 3600 hx (by norm_num)
  have hm60 := jsMod_eq_of_nonneg x 60 hx (by norm_num)
  have hb60 := jsMod_bounds x 60 hx (by norm_num)
  have hm1 := jsMod_eq_of_nonneg x 1 hx (by norm_num)
  have hfr : jsMod x 1 = x - ⌊x⌋ := by
    rw [hm1, div_one]
    ring
  have hfr0 : 0 ≤ x - (⌊x⌋ : ℚ) := by linarith [Int.floor_le x]
  have hfr1 : x - (⌊x⌋ : ℚ) < 1 := by linarith [Int.lt_floor_add_one x]
  have hmineq : ⌊jsMod x 3600 / 60⌋ = ⌊x / 60⌋ - 60 * ⌊x / 3600⌋ := by
    have he : jsMod x 3600 / 60 = x / 60 - ((60 * ⌊x / 3600⌋ : ℤ) : ℚ) := by
      rw [hm3600]
      push_cast
      ring
    rw [he, Int.floor_sub_int]
  have hseq : ⌊jsMod x 60⌋ = ⌊x⌋ - 60 * ⌊x / 60⌋ := by
    have he : jsMod x 60 = x - ((60 * ⌊x / 60⌋ : ℤ) : ℚ) := by
      rw [hm60]
      push_cast
      ring
    rw [he, Int.floor_sub_int]
  have hmb : 0 ≤ ⌊jsMod x 3600 / 60⌋ ∧ ⌊jsMod x 3600 / 60⌋ < 60 := by
    constructor
    · exact Int.le_floor.mpr (by simpa using div_nonneg hb3600.1 (by norm_num : (0:ℚ) ≤ 60))
    · refine Int.floor_lt.mpr ?_
      have := hb3600.2
      push_cast
      linarith
  have hsb : 0 ≤ ⌊jsMod x 60⌋ ∧ ⌊jsMod x 60⌋ < 60 := by
    constructor
    · exact Int.le_floor.mpr hb60.1
    · exact Int.floor_lt.mpr (by push_cast; linarith [hb60.2])
  have hmsb : 0 ≤ round (jsMod x 1 * 1000) ∧ round (jsMod x 1 * 1000) ≤ 1000 := by
    rw [hfr, round_eq]
    constructor
    · exact Int.le_floor.mpr (by push_cast; linarith)
    · have : ⌊(x - (⌊x⌋ : ℚ)) * 1000 + 1 / 2⌋ < 1001 :=
        Int.floor_lt.mpr (by push_cast; linarith)
      omega
  refine ⟨hh0, hmb, hsb, hmsb, ?_, ?_⟩
  · rw [hmineq, hseq]
    ring
  · have := abs_sub_round ((x - (⌊x⌋ : ℚ)) * 1000)
    rw [hfr, abs_sub_comm]
    exact this

/-- For a non-negative input every component of `formatSRTTime` is
non-negative, so each field is the zero-padded decimal digits of a natural
number. -/
theorem formatSRTTime_as_padStart (x : ℚ) (hx : 0 ≤ x) :
    formatSRTTime x = padStart (natChars (⌊x / 3600⌋).toNat) 2
      ++ ':' :: (padStart (natChars (⌊jsMod x 3600 / 60⌋).toNat) 2
      ++ ':' :: (padStart (natChars (⌊jsMod x 60⌋).toNat) 2
      ++ ',' :: padStart (natChars (round (jsMod x 1 * 1000)).toNat) 3)) := by
  obtain ⟨hh0, hmb, hsb, hmsb, _, _⟩ := formatComponents x hx
  unfold formatSRTTime
  rw [padInt_of_nonneg hh0, padInt_of_nonneg hmb.1, padInt_of_nonneg hsb.1,
    padInt_of_nonneg hmsb.1]
  simp [List.append_assoc]

/-- C1: for every seconds value `x` in `[0, 359999.999]`, parsing the
formatted timecode recovers `x` to within one millisecond:
`parseSRTTime (formatSRTTime x)` is a number `r` with `|r - x| ≤ 1/1000`. -/
theorem c1_parse_format_roundtrip (x : ℚ) (hx : 0 ≤ x) (_hub : x ≤ 359999999 / 1000) :
    ∃ r : ℚ, parseSRTTime (formatSRTTime x) = some r ∧ |r - x| ≤ 1 / 1000 := by
  obtain ⟨hh0, hmb, hsb, hmsb, hsum, habs⟩ := formatComponents x hx
  rw [formatSRTTime_as_padStart x hx, parseSRTTime_formatted]
  refine ⟨_, rfl, ?_⟩
  have hcH : ((⌊x / 3600⌋.toNat : ℕ) : ℚ) = ((⌊x / 3600⌋ : ℤ) : ℚ) := by
    exact_mod_cast Int.toNat_of_nonneg hh0
  have hcM : ((⌊jsMod x 3600 / 60⌋.toNat : ℕ) : ℚ) = ((⌊jsMod x 3600 / 60⌋ : ℤ) : ℚ) := by
    exact_mod_cast Int.toNat_of_nonneg hmb.1
  have hcS : ((⌊jsMod x 60⌋.toNat : ℕ) : ℚ) = ((⌊jsMod x 60⌋ : ℤ) : ℚ) := by
    exact_mod_cast Int.toNat_of_nonneg hsb.1
  have hcMS : (((round (jsMod x 1 * 1000)).toNat : ℕ) : ℚ)
      = ((round (jsMod x 1 * 1000) : ℤ) : ℚ) := by
    exact_mod_cast Int.toNat_of_nonneg hmsb.1
  rw [hcH, hcM, hcS, hcMS]
  have hsumQ : ((⌊x / 3600⌋ : ℤ) : ℚ) * 3600 + ((⌊jsMod x 3600 / 60⌋ : ℤ) : ℚ) * 60
      + ((⌊jsMod x 60⌋ : ℤ) : ℚ) = ((⌊x⌋ : ℤ) : ℚ) := by
    exact_mod_cast hsum
  rw [hsumQ]
  rw [abs_le] at habs ⊢
  constructor <;> linarith [habs.1, habs.2]

/-- Witness for C1 at the concrete input `x = 5/2` (formatted `00:00:02,500`). -/
theorem c1_parse_format_roundtrip_witness :
    (0 : ℚ) ≤ 5 / 2 ∧ (5 / 2 : ℚ) ≤ 359999999 / 1000
      ∧ ∃ r : ℚ, parseSRTTime (formatSRTTime (5 / 2)) = some r ∧ |r - 5 / 2| ≤ 1 / 1000 :=
  ⟨by norm_num, by norm_num,
    c1_parse_format_roundtrip (5 / 2) (by norm_num) (by norm_num)⟩

/-- Counterexample to C8 as stated: at `x = 0.9995` the millisecond remainder
rounds up to `1000`, so the millisecond field is the four characters `1000`
rather than exactly three digits — the output is `00:00:00,1000`, 13
characters instead of the claimed `HH:MM:SS,mmm` (12 for a sub-hour value). -/
theorem c8_ms_field_counterexample :
    formatSRTTime (1999 / 2000) = "00:00:00,1000".toList
      ∧ ("00:00:00,1000".toList).length = 13 := by
  have hx : (0 : ℚ) ≤ 1999 / 2000 := by norm_num
  have hfl1 : (⌊(1999 / 2000 : ℚ) / 3600⌋ : ℤ) = 0 := by
    norm_num [Int.floor_eq_zero_iff]
  have hfl60 : (⌊(1999 / 2000 : ℚ) / 60⌋ : ℤ) = 0 := by
    norm_num [Int.floor_eq_zero_iff]
  have hfl0 : (⌊(1999 / 2000 : ℚ)⌋ : ℤ) = 0 := by
    norm_num [Int.floor_eq_zero_iff]
  have hm3600 : jsMod (1999 / 2000 : ℚ) 3600 = 1999 / 2000 := by
    rw [jsMod_eq_of_nonneg _ _ hx (by norm_num), hfl1]
    norm_num
  have hm60 : jsMod (1999 / 2000 : ℚ) 60 = 1999 / 2000 := by
    rw [jsMod_eq_of_nonneg _ _ hx (by norm_num), hfl60]
    norm_num
  have hm1 : jsMod (1999 / 2000 : ℚ) 1 = 1999 / 2000 := by
    rw [jsMod_eq_of_nonneg _ _ hx (by norm_num), div_one, hfl0]
    norm_num
  have hround : round ((1999 / 2000 : ℚ) * 1000) = 1000 := by
    rw [show (1999 / 2000 : ℚ) * 1000 = 1999 / 2 by norm_num, round_eq]
    norm_num
  constructor
  · unfold formatSRTTime
    rw [hm3600, hm60, hm1, hfl1, hround,
      show (⌊(1999 / 2000 : ℚ) / 60⌋ : ℤ) = 0 from hfl60,
      show (⌊(1999 / 2000 : ℚ)⌋ : ℤ) = 0 from hfl0]
    decide
  · decide

/-- C8 (amended): for every non-negative seconds value the output is the
four zero-padded decimal fields `HH:MM:SS,mmm` joined by `:`, `:`, `,`, with
hour/minute/second obtained by floor and the millisecond remainder by
rounding; hours are unbounded (`⌊x/3600⌋`, never wrapped to 24) and padded to
at least two digits, minutes and seconds are exactly two digits, and the
millisecond field is exactly three digits whenever the remainder rounds to at
most `999` — but it can also round to `1000`, giving a four-digit field
(see the counterexample). -/
theorem c8_format_shape_amended (x : ℚ) (hx : 0 ≤ x) :
    formatSRTTime x
        = padInt ⌊x / 3600⌋ 2 ++ ':' :: padInt ⌊jsMod x 3600 / 60⌋ 2
            ++ ':' :: padInt ⌊jsMod x 60⌋ 2 ++ ',' :: padInt (round (jsMod x 1 * 1000)) 3
      ∧ 2 ≤ (padInt ⌊x / 3600⌋ 2).length
      ∧ (padInt ⌊jsMod x 3600 / 60⌋ 2).length = 2
      ∧ (padInt ⌊jsMod x 60⌋ 2).length = 2
      ∧ (round (jsMod x 1 * 1000) ≤ 999 → (padInt (round (jsMod x 1 * 1000)) 3).length = 3)
      ∧ (0 ≤ ⌊x / 3600⌋)
      ∧ (0 ≤ ⌊jsMod x 3600 / 60⌋ ∧ ⌊jsMod x 3600 / 60⌋ < 60)
      ∧ (0 ≤ ⌊jsMod x 60⌋ ∧ ⌊jsMod x 60⌋ < 60)
      ∧ (0 ≤ round (jsMod x 1 * 1000) ∧ round (jsMod x 1 * 1000) ≤ 1000)
      ∧ (∀ c ∈ padInt ⌊x / 3600⌋ 2, isDigitChar c = true)
      ∧ (∀ c ∈ padInt ⌊jsMod x 3600 / 60⌋ 2, isDigitChar c = true)
      ∧ (∀ c ∈ padInt ⌊jsMod x 60⌋ 2, isDigitChar c = true)
      ∧ (∀ c ∈ padInt (round (jsMod x 1 * 1000)) 3, isDigitChar c = true) := by
  obtain ⟨hh0, hmb, hsb, hmsb, _, _⟩ := formatComponents x hx
  refine ⟨rfl, ?_, ?_, ?_, ?_, hh0, hmb, hsb, hmsb, ?_, ?_, ?_, ?_⟩
  · rw [padInt_of_nonneg hh0, length_padStart]
    omega
  · rw [padInt_of_nonneg hmb.1, length_padStart]
    have : (natChars (⌊jsMod x 3600 / 60⌋.toNat)).length ≤ 2 :=
      length_natChars_le (by norm_num) (by have := hmb.2; omega)
    omega
  · rw [padInt_of_nonneg hsb.1, length_padStart]
    have : (natChars (⌊jsMod x 60⌋.toNat)).length ≤ 2 :=
      length_natChars_le (by norm_num) (by have := hsb.2; omega)
    omega
  · intro h999
    rw [padInt_of_nonneg hmsb.1, length_padStart]
    have : (natChars ((round (jsMod x 1 * 1000)).toNat)).length ≤ 3 :=
      length_natChars_le (by norm_num) (by omega)
    omega
  · rw [padInt_of_nonneg hh0]
    exact fun c hc => mem_padStart_natChars_isDigit hc
  · rw [padInt_of_nonneg hmb.1]
    exact fun c hc => mem_padStart_natChars_isDigit hc
  · rw [padInt_of_nonneg hsb.1]
    exact fun c hc => mem_padStart_natChars_isDigit hc
  · rw [padInt_of_nonneg hmsb.1]
    exact fun c hc => mem_padStart_natChars_isDigit hc

/-- Witness for C8 (amended) at `x = 5/2`. -/
theorem c8_format_shape_amended_witness :
    (0 : ℚ) ≤ 5 / 2
      ∧ ((formatSRTTime (5 / 2)
        = padInt ⌊(5 / 2 : ℚ) / 3600⌋ 2
            ++ ':' :: padInt ⌊jsMod (5 / 2) 3600 / 60⌋ 2
            ++ ':' :: padInt ⌊jsMod (5 / 2) 60⌋ 2
            ++ ',' :: padInt (round (jsMod (5 / 2) 1 * 1000)) 3)
      ∧ 2 ≤ (padInt ⌊(5 / 2 : ℚ) / 3600⌋ 2).length
      ∧ (padInt ⌊jsMod (5 / 2 : ℚ) 3600 / 60⌋ 2).length = 2
      ∧ (padInt ⌊jsMod (5 / 2 : ℚ) 60⌋ 2).length = 2
      ∧ (round (jsMod (5 / 2 : ℚ) 1 * 1000) ≤ 999
          → (padInt (round (jsMod (5 / 2 : ℚ) 1 * 1000)) 3).length = 3)
      ∧ (0 ≤ ⌊(5 / 2 : ℚ) / 3600⌋)
      ∧ (0 ≤ ⌊jsMod (5 / 2 : ℚ) 3600 / 60⌋ ∧ ⌊jsMod (5 / 2 : ℚ) 3600 / 60⌋ < 60)
      ∧ (0 ≤ ⌊jsMod (5 / 2 : ℚ) 60⌋ ∧ ⌊jsMod (5 / 2 : ℚ) 60⌋ < 60)
      ∧ (0 ≤ round (jsMod (5 / 2 : ℚ) 1 * 1000) ∧ round (jsMod (5 / 2 : ℚ) 1 * 1000) ≤ 1000)
      ∧ (∀ c ∈ padInt ⌊(5 / 2 : ℚ) / 3600⌋ 2, isDigitChar c = true)
      ∧ (∀ c ∈ padInt ⌊jsMod (5 / 2 : ℚ) 3600 / 60⌋ 2, isDigitChar c = true)
      ∧ (∀ c ∈ padInt ⌊jsMod (5 / 2 : ℚ) 60⌋ 2, isDigitChar c = true)
      ∧ (∀ c ∈ padInt (round (jsMod (5 / 2 : ℚ) 1 * 1000)) 3, isDigitChar c = true)) :=
  ⟨by norm_num, c8_format_shape_amended (5 / 2) (by norm_num)⟩

/-- Counterexample to C4 as stated: on the garbage input `"a:b"` the parser
takes the two-field branch, `parseInt` yields `NaN` for both fields, and the
arithmetic propagates `NaN` — the result is `NaN` (here `none`), not `0`.
(It still does not raise: `NaN` is a number value.) -/
theorem c4_garbage_nan_counterexample :
    parseSRTTime "a:b".toList = none ∧ (none : Option ℚ) ≠ some 0 := by
  constructor
  · decide
  · decide

/-- C4 (amended): `parseSRTTime` is total (never raises — every input yields
either a number or `NaN`), the missing (empty) input yields `0`, and garbage
that does not split into two or three `:`-separated fields yields `0`; only
colon-shaped garbage whose fields fail numeric parsing produces `NaN`
instead of `0`. -/
theorem c4_parse_never_raises_amended (s : List Char) :
    (parseSRTTime s = none ∨ ∃ q : ℚ, parseSRTTime s = some q)
      ∧ (s = [] → parseSRTTime s = some 0)
      ∧ ((splitOnChar ':' (replaceFirstComma s)).length ≠ 2
          → (splitOnChar ':' (replaceFirstComma s)).length ≠ 3
          → parseSRTTime s = some 0) := by
  refine ⟨?_, ?_, ?_⟩
  · cases hp : parseSRTTime s with
    | none => exact Or.inl rfl
    | some q => exact Or.inr ⟨q, rfl⟩
  · intro hs
    rw [hs]
    rfl
  · intro h2 h3
    by_cases hs : s = []
    · rw [hs]
      rfl
    · rcases hl : splitOnChar ':' (replaceFirstComma s) with _ | ⟨p0, _ | ⟨p1, _ | ⟨p2, _ | ⟨p3, l4⟩⟩⟩⟩
      · unfold parseSRTTime
        rw [if_neg hs]
        simp only [hl]
      · unfold parseSRTTime
        rw [if_neg hs]
        simp only [hl]
      · exact absurd (by rw [hl]; rfl : (splitOnChar ':' (replaceFirstComma s)).length = 2) h2
      · exact absurd (by rw [hl]; rfl : (splitOnChar ':' (replaceFirstComma s)).length = 3) h3
      · unfold parseSRTTime
        rw [if_neg hs]
        simp only [hl]

/-- Witness for C4 (amended) at the concrete garbage input `"garbage"`
(one `:`-field, so the parser yields `0`). -/
theorem c4_parse_never_raises_amended_witness :
    ((splitOnChar ':' (replaceFirstComma "garbage".toList)).length ≠ 2
        ∧ (splitOnChar ':' (replaceFirstComma "garbage".toList)).length ≠ 3)
      ∧ ((parseSRTTime "garbage".toList = none
            ∨ ∃ q : ℚ, parseSRTTime "garbage".toList = some q)
          ∧ ("garbage".toList = [] → parseSRTTime "garbage".toList = some 0)
          ∧ ((splitOnChar ':' (replaceFirstComma "garbage".toList)).length ≠ 2
              → (splitOnChar ':' (replaceFirstComma "garbage".toList)).length ≠ 3
              → parseSRTTime "garbage".toList = some 0)) :=
  ⟨by decide, c4_parse_never_raises_amended "garbage".toList⟩

/-- Characterization of `List.find?`: it returns `some c` exactly when the
list splits as a prefix of non-matching elements, then `c`, which matches. -/
theorem find?_first_iff {α : Type} (p : α → Bool) (l : List α) (c : α) :
    l.find? p = some c
      ↔ ∃ l1 l2, l = l1 ++ c :: l2 ∧ p c = true ∧ ∀ x ∈ l1, p x = false := by
  induction l with
  | nil => simp
  | cons a as ih =>
    by_cases hpa : p a = true
    · rw [List.find?_cons_of_pos _ hpa]
      constructor
      · intro h
        injection h with h
        subst h
        exact ⟨[], as, rfl, hpa, by simp⟩
      · rintro ⟨l1, l2, hdecomp, hpc, hl1⟩
        cases l1 with
        | nil =>
          simp only [List.nil_append, List.cons.injEq] at hdecomp
          rw [hdecomp.1]
        | cons b l1' =>
          simp only [List.cons_append, List.cons.injEq] at hdecomp
          have hb := hl1 b (List.mem_cons_self b l1')
          rw [← hdecomp.1, hpa] at hb
          exact Bool.noConfusion hb
    · have hpa' : p a = false := by
        cases h : p a
        · rfl
        · exact absurd h hpa
      rw [List.find?_cons_of_neg _ hpa]
      rw [ih]
      constructor
      · rintro ⟨l1, l2, rfl, hpc, hl1⟩
        refine ⟨a :: l1, l2, rfl, hpc, ?_⟩
        intro x hx
        rcases List.mem_cons.mp hx with rfl | hx
        · exact hpa'
        · exact hl1 x hx
      · rintro ⟨l1, l2, hdecomp, hpc, hl1⟩
        cases l1 with
        | nil =>
          simp only [List.nil_append, List.cons.injEq] at hdecomp
          rw [hdecomp.1, hpc] at hpa'
          exact Bool.noConfusion hpa'
        | cons b l1' =>
          simp only [List.cons_append, List.cons.injEq] at hdecomp
          exact ⟨l1', l2, hdecomp.2, hpc, fun x hx => hl1 x (List.mem_cons_of_mem _ hx)⟩

/-- C2: `findActiveCue` returns `none` on the empty list, and returns `some c`
exactly when the cue list splits as a prefix of cues whose closed interval
does not contain `t`, followed by `c` whose `[startTime, endTime]` does
contain `t` (inclusive on both ends) — i.e. the first match in list order
wins, even when a later cue's interval also contains `t`; being a total
function it never raises, on out-of-order or overlapping lists included. -/
theorem c2_findActiveCue_first_match (cues : List SubtitleCue) (t : ℚ) :
    findActiveCue [] t = none
      ∧ ∀ c : SubtitleCue,
          (findActiveCue cues t = some c
            ↔ ∃ l1 l2, cues = l1 ++ c :: l2
                ∧ (c.startTime ≤ t ∧ t ≤ c.endTime)
                ∧ ∀ d ∈ l1, ¬(d.startTime ≤ t ∧ t ≤ d.endTime)) := by
  have hpt : ∀ x : SubtitleCue,
      (decide (t ≥ x.startTime) && decide (t ≤ x.endTime)) = true
        ↔ (x.startTime ≤ t ∧ t ≤ x.endTime) := by
    intro x
    simp [ge_iff_le]
  have hpf : ∀ x : SubtitleCue,
      (decide (t ≥ x.startTime) && decide (t ≤ x.endTime)) = false
        ↔ ¬(x.startTime ≤ t ∧ t ≤ x.endTime) := by
    intro x
    rw [← Bool.not_eq_true, not_iff_not]
    exact hpt x
  refine ⟨rfl, fun c => ?_⟩
  unfold findActiveCue
  rw [find?_first_iff]
  constructor
  · rintro ⟨l1, l2, hdec, hpc, hl1⟩
    exact ⟨l1, l2, hdec, (hpt c).mp hpc, fun d hd => (hpf d).mp (hl1 d hd)⟩
  · rintro ⟨l1, l2, hdec, hc, hl1⟩
    exact ⟨l1, l2, hdec, (hpt c).mpr hc, fun d hd => (hpf d).mpr (hl1 d hd)⟩

/-- Witness for C2: applying the characterization to a concrete two-cue list
with overlapping intervals at `t = 7` shows the first cue wins. -/
theorem c2_findActiveCue_first_match_witness :
    findActiveCue
        [{ id := "a", startTime := 0, endTime := 10, text := ['x'] },
         { id := "b", startTime := 5, endTime := 15, text := ['y'] }] 7
      = some { id := "a", startTime := 0, endTime := 10, text := ['x'] } :=
  ((c2_findActiveCue_first_match
      [{ id := "a", startTime := 0, endTime := 10, text := ['x'] },
       { id := "b", startTime := 5, endTime := 15, text := ['y'] }] 7).2
    { id := "a", startTime := 0, endTime := 10, text := ['x'] }).mpr
    ⟨[], [{ id := "b", startTime := 5, endTime := 15, text := ['y'] }], rfl,
      ⟨by norm_num, by norm_num⟩, by simp⟩

/-! ## Lemmas about the greedy wrap -/

theorem wrapWords_ne_nil (measure : List Char → ℚ) (maxWidth : ℚ)
    (cl : List Char) (ws : List (List Char)) :
    wrapWords measure maxWidth cl ws ≠ [] := by
  induction ws generalizing cl with
  | nil => simp [wrapWords]
  | cons w ws ih =>
    unfold wrapWords
    split
    · exact ih (cl ++ ' ' :: w)
    · simp

theorem wrapParagraph_ne_nil (measure : List Char → ℚ) (maxWidth : ℚ) (p : List Char) :
    wrapParagraph measure maxWidth p ≠ [] := by
  unfold wrapParagraph
  obtain ⟨w, ws, hsp⟩ := List.exists_cons_of_ne_nil (splitOnChar_ne_nil ' ' p)
  rw [hsp]
  exact wrapWords_ne_nil measure maxWidth w ws

/-- Invariant of the greedy loop: if the pending line is within the bound or
satisfies `P`, and every remaining word satisfies `P`, then every emitted
line is within the bound or satisfies `P`. -/
theorem wrapWords_lines_sound (measure : List Char → ℚ) (maxWidth : ℚ)
    (P : List Char → Prop) (ws : List (List Char)) (cl : List Char)
    (hcl : measure cl < maxWidth ∨ P cl) (hws : ∀ w ∈ ws, P w) :
    ∀ line ∈ wrapWords measure maxWidth cl ws, measure line < maxWidth ∨ P line := by
  induction ws generalizing cl with
  | nil =>
    intro line hl
    simp only [wrapWords, List.mem_singleton] at hl
    exact hl ▸ hcl
  | cons w ws ih =>
    intro line hl
    unfold wrapWords at hl
    split at hl
    · rename_i hfit
      exact ih (cl ++ ' ' :: w) (Or.inl hfit)
        (fun w' hw' => hws w' (List.mem_cons_of_mem _ hw')) line hl
    · rcases List.mem_cons.mp hl with rfl | hl'
      · exact hcl
      · exact ih w (Or.inr (hws w (List.mem_cons_self w ws)))
          (fun w' hw' => hws w' (List.mem_cons_of_mem _ hw')) line hl'

/-- The greedy loop only ever joins the given words with single spaces:
splitting its output lines on spaces and concatenating gives back the pending
line's words followed by the remaining words. -/
theorem wrapWords_flatMap_split (measure : List Char → ℚ) (maxWidth : ℚ)
    (ws : List (List Char)) (cl : List Char) (hws : ∀ w ∈ ws, (' ' : Char) ∉ w) :
    (wrapWords measure maxWidth cl ws).flatMap (splitOnChar ' ')
      = splitOnChar ' ' cl ++ ws := by
  induction ws generalizing cl with
  | nil => simp [wrapWords]
  | cons w ws ih =>
    have hw : (' ' : Char) ∉ w := hws w (List.mem_cons_self w ws)
    have hrest : ∀ w' ∈ ws, (' ' : Char) ∉ w' :=
      fun w' hw' => hws w' (List.mem_cons_of_mem _ hw')
    have hsplit : splitOnChar ' ' (cl ++ ' ' :: w) = splitOnChar ' ' cl ++ [w] := by
      rw [splitOnChar_append, splitOnChar_eq_single hw]
    unfold wrapWords
    split
    · rw [ih (cl ++ ' ' :: w) hrest, hsplit]
      simp
    · rw [List.flatMap_cons, ih w hrest, splitOnChar_eq_single hw]
      simp

/-- C3: every line produced by `wrapText` measures at most `maxWidth`,
except possibly a line that is a single unbreakable word of the input
(a space-free word of one of its paragraphs), emitted verbatim. -/
theorem c3_wrap_width_bound (measure : List Char → ℚ) (text : List Char) (maxWidth : ℚ) :
    ∀ line ∈ wrapText measure text maxWidth,
      measure line ≤ maxWidth
        ∨ ((' ' : Char) ∉ line
            ∧ ∃ p ∈ splitOnChar '\n' text, line ∈ splitOnChar ' ' p) := by
  intro line hl
  unfold wrapText at hl
  rw [List.mem_flatMap] at hl
  obtain ⟨p, hp, hlp⟩ := hl
  unfold wrapParagraph at hlp
  obtain ⟨w, ws, hsp⟩ := List.exists_cons_of_ne_nil (splitOnChar_ne_nil ' ' p)
  rw [hsp] at hlp
  have := wrapWords_lines_sound measure maxWidth (fun l => l ∈ splitOnChar ' ' p) ws w
    (Or.inr (hsp ▸ List.mem_cons_self w ws))
    (fun w' hw' => hsp ▸ List.mem_cons_of_mem _ hw') line hlp
  rcases this with h | h
  · exact Or.inl h.le
  · exact Or.inr ⟨not_mem_of_mem_splitOnChar h, p, hp, h⟩

/-- Witness for C3: wrapping `"hello world"` at width 4 under the
length measure emits the over-long word `"hello"` as its own line. -/
theorem c3_wrap_width_bound_witness :
    ("hello".toList ∈ wrapText (fun l => (l.length : ℚ)) "hello world".toList 4)
      ∧ ((fun l : List Char => (l.length : ℚ)) "hello".toList ≤ 4
          ∨ ((' ' : Char) ∉ "hello".toList
              ∧ ∃ p ∈ splitOnChar '\n' "hello world".toList,
                  "hello".toList ∈ splitOnChar ' ' p)) :=
  ⟨by decide,
    c3_wrap_width_bound (fun l => (l.length : ℚ)) "hello world".toList 4
      "hello".toList (by decide)⟩

/-- C5: `wrapText` splits on explicit line breaks first and wraps each
paragraph independently; every paragraph contributes at least one output
line; an empty paragraph contributes exactly one empty line; and
`wrapText "Hello\nWorld"` is `["Hello", "World"]` for every measure and
every `maxWidth` (paragraph breaks always force a new line). -/
theorem c5_wrap_paragraph_lines (measure : List Char → ℚ) (maxWidth : ℚ) :
    (∀ text : List Char,
        wrapText measure text maxWidth
          = (splitOnChar '\n' text).flatMap (wrapParagraph measure maxWidth))
      ∧ (∀ p : List Char, 1 ≤ (wrapParagraph measure maxWidth p).length)
      ∧ wrapParagraph measure maxWidth [] = [[]]
      ∧ wrapText measure "Hello\nWorld".toList maxWidth
          = ["Hello".toList, "World".toList] := by
  refine ⟨fun text => rfl, fun p => ?_, rfl, rfl⟩
  have h := wrapParagraph_ne_nil measure maxWidth p
  cases hl : wrapParagraph measure maxWidth p with
  | nil => exact absurd hl h
  | cons a l => simp

/-- C10: the wrap preserves words — splitting each paragraph's output lines
on single spaces and concatenating them in order yields exactly the
paragraph's original word sequence, so no word is dropped, duplicated,
reordered, or broken across lines. -/
theorem c10_wrap_preserves_words (measure : List Char → ℚ) (maxWidth : ℚ) :
    (∀ text : List Char,
        wrapText measure text maxWidth
          = (splitOnChar '\n' text).flatMap (wrapParagraph measure maxWidth))
      ∧ ∀ p : List Char,
          (wrapParagraph measure maxWidth p).flatMap (splitOnChar ' ')
            = splitOnChar ' ' p := by
  refine ⟨fun text => rfl, fun p => ?_⟩
  unfold wrapParagraph
  obtain ⟨w, ws, hsp⟩ := List.exists_cons_of_ne_nil (splitOnChar_ne_nil ' ' p)
  have hall : ∀ w' ∈ splitOnChar ' ' p, (' ' : Char) ∉ w' :=
    fun w' hw' => not_mem_of_mem_splitOnChar hw'
  rw [hsp]
  rw [wrapWords_flatMap_split measure maxWidth ws w
    (fun w' hw' => hall w' (hsp ▸ List.mem_cons_of_mem _ hw')),
    splitOnChar_eq_single (hall w (hsp ▸ List.mem_cons_self w ws))]
  rfl

/-- A `fillRect` command is never among the per-line text commands of
`drawSubtitleOnCanvas`. -/
theorem fillRect_notin_textops (a b w h : ℚ) (flag : Bool) (s : List Char) (tx ty : ℚ) :
    CanvasOp.fillRect a b w h
      ∉ ((if flag = true then [CanvasOp.strokeTextOp s tx ty] else [])
          ++ [CanvasOp.fillTextOp s tx ty]) := by
  intro hmem
  rcases List.mem_append.mp hmem with h1 | h1
  · cases flag
    · simp at h1
    · simp at h1
  · simp at h1

/-- The running-maximum fold of `drawSubtitleOnCanvas` computes the maximum
of the measured line widths (and the initial value). -/
theorem foldl_maxline_eq (measure : List Char → ℚ) (lines : List (List Char)) (init : ℚ) :
    lines.foldl (fun m line => if measure line > m then measure line else m) init
      = (lines.map measure).foldl max init := by
  induction lines generalizing init with
  | nil => rfl
  | cons l ls ih =>
    simp only [List.foldl_cons, List.map_cons]
    rw [ih]
    congr 1
    rcases le_or_lt (measure l) init with h | h
    · rw [if_neg (not_lt.mpr h), max_eq_left h]
    · rw [if_pos h, max_eq_right h.le]

/-- C6: when the background is not the sentinel `"transparent"`, the first
drawing command is the background box with height
`lines.length × lineHeight + 2 × (fontSize × 0.3)` (independent of the text
content), width `widest measured line + fontSize × 0.6 per side`, centered
horizontally on the anchor `x`, its bottom at `y + fontSize × 0.2`; when the
background is `"transparent"` no box is drawn at all. -/
theorem c6_box_geometry (measure : List Char → ℚ) (text : List Char)
    (style : SubtitleStyle) (width height : ℚ) :
    let scale := height / 600
    let fontSize := style.fontSize * scale
    let x := width / 2
    let y := height * (1 - style.position / 100)
    let lines := wrapText measure text (width * 0.8)
    let boxWidth := ((lines.map measure).foldl max 0) + 2 * (fontSize * 0.6)
    let boxHeight := (lines.length : ℚ) * (fontSize * 1.25) + 2 * (fontSize * 0.3)
    let ops := drawSubtitleOnCanvas measure text style width height
    (style.backgroundColor = "transparent"
        → ∀ a b w h : ℚ, CanvasOp.fillRect a b w h ∉ ops)
      ∧ (style.backgroundColor ≠ "transparent"
        → ops.head? = some (CanvasOp.fillRect (x - boxWidth / 2)
            ((y + fontSize * 0.2) - boxHeight) boxWidth boxHeight)) := by
  intro scale fontSize x y lines boxWidth boxHeight ops
  unfold ops boxWidth boxHeight x y fontSize lines scale
  constructor
  · intro htr a b w h hmem
    simp only [drawSubtitleOnCanvas, htr, ne_eq, not_true_eq_false, if_false,
      List.nil_append] at hmem
    rw [List.mem_flatMap] at hmem
    obtain ⟨pr, _, hin⟩ := hmem
    exact fillRect_notin_textops _ _ _ _ _ _ _ _ hin
  · intro hn
    simp only [drawSubtitleOnCanvas, if_pos hn, List.cons_append, List.head?_cons,
      Option.some.injEq]
    rw [foldl_maxline_eq]
    simp only [CanvasOp.fillRect.injEq]
    refine ⟨by ring, by ring, by ring, by ring⟩

/-- Counterexample to C7 as stated: the code computes
`min(100, round(t/d×100))` with no lower clamp, so at query time `-1` with
duration `1` it reports `-100`, while the claimed formula
`clamp(round(t/d×100), 0, 100)` gives `0` — the reported value is not always
in `[0, 100]`. -/
theorem c7_progress_lower_clamp_counterexample :
    progressValue (-1) 1 = -100 ∧ progressSpec (-1) 1 = 0
      ∧ progressValue (-1) 1 ≠ progressSpec (-1) 1 ∧ progressValue (-1) 1 < 0 := by
  have h : ((-1 : ℚ)) / 1 * 100 = ((-100 : ℤ) : ℚ) := by norm_num
  have hr : round ((-1 : ℚ) / 1 * 100) = -100 := by rw [h, round_intCast]
  unfold progressValue progressSpec
  rw [hr]
  refine ⟨by decide, by decide, by decide, by decide⟩

/-- C7 (amended): for a non-negative query time and positive duration the
reported progress `min(100, round(t/d×100))` coincides with the spec's
`clamp(round(t/d×100), 0, 100)` and is an integer in `[0, 100]`; the lower
clamp is genuinely missing from the code, so this fails for negative query
times (see the counterexample). -/
theorem c7_progress_amended (q d : ℚ) (hq : 0 ≤ q) (hd : 0 < d) :
    progressValue q d = progressSpec q d
      ∧ 0 ≤ progressValue q d ∧ progressValue q d ≤ 100 := by
  have h0 : 0 ≤ round (q / d * 100) := by
    rw [round_eq]
    exact Int.le_floor.mpr (by positivity)
  unfold progressValue progressSpec
  omega

/-- Witness for C7 (amended) at `q = 1`, `d = 2`. -/
theorem c7_progress_amended_witness :
    (0 : ℚ) ≤ 1 ∧ (0 : ℚ) < 2
      ∧ (progressValue 1 2 = progressSpec 1 2
          ∧ 0 ≤ progressValue 1 2 ∧ progressValue 1 2 ≤ 100) :=
  ⟨by norm_num, by norm_num, c7_progress_amended 1 2 (by norm_num) (by norm_num)⟩

/-! ## Lemmas about the `burnSubtitles` event skeleton -/

/-- Once the promise is settled, later events change neither the settled
flag nor the number of surfaced failures. -/
theorem burnSteps_settled (events : List BurnEvent) (st : BurnState)
    (h : st.settled = true) :
    (events.foldl burnStep st).settled = true
      ∧ (events.foldl burnStep st).failures = st.failures := by
  induction events generalizing st with
  | nil => exact ⟨h, rfl⟩
  | cons e es ih =>
    cases e with
    | loadedMetadata a b c => exact ih { st with recorderInited := true, recording := true } h
    | playbackError =>
      simp only [List.foldl_cons, burnStep, h, if_true]
      exact ih st h
    | ended =>
      simp only [List.foldl_cons, burnStep]
      by_cases hrec : st.recorderInited = true
      · rw [if_pos hrec]
        exact ih { st with recording := false } h
      · rw [if_neg hrec]
        exact ih st h

/-- Without a metadata event no recorder is ever created and recording never
starts. -/
theorem burnSteps_no_recorder (events : List BurnEvent) (st : BurnState)
    (hmeta : ∀ e ∈ events, isMetadataEvent e = false)
    (hrec : st.recorderInited = false) (hrecording : st.recording = false) :
    (events.foldl burnStep st).recorderInited = false
      ∧ (events.foldl burnStep st).recording = false := by
  induction events generalizing st with
  | nil => exact ⟨hrec, hrecording⟩
  | cons e es ih =>
    have hrest : ∀ e' ∈ es, isMetadataEvent e' = false :=
      fun e' he' => hmeta e' (List.mem_cons_of_mem _ he')
    cases e with
    | loadedMetadata a b c =>
      exact absurd (hmeta _ (List.mem_cons_self _ _)) (by simp [isMetadataEvent])
    | playbackError =>
      simp only [List.foldl_cons, burnStep]
      by_cases hs : st.settled = true
      · rw [if_pos hs]
        exact ih st hrest hrec hrecording
      · rw [if_neg hs]
        exact ih _ hrest hrec hrecording
    | ended =>
      simp only [List.foldl_cons, burnStep, hrec]
      exact ih st hrest hrec hrecording

/-- Without a metadata event, a playback error settles the promise with
exactly one surfaced failure, and the state keeps counting from there. -/
theorem burnSteps_no_metadata_error (events : List BurnEvent) (st : BurnState)
    (hmeta : ∀ e ∈ events, isMetadataEvent e = false)
    (hsettled : st.settled = false) (herr : BurnEvent.playbackError ∈ events) :
    (events.foldl burnStep st).settled = true
      ∧ (events.foldl burnStep st).failures = st.failures + 1 := by
  induction events generalizing st with
  | nil => exact absurd herr (List.not_mem_nil _)
  | cons e es ih =>
    have hrest : ∀ e' ∈ es, isMetadataEvent e' = false :=
      fun e' he' => hmeta e' (List.mem_cons_of_mem _ he')
    cases e with
    | loadedMetadata a b c =>
      exact absurd (hmeta _ (List.mem_cons_self _ _)) (by simp [isMetadataEvent])
    | playbackError =>
      simp only [List.foldl_cons, burnStep, hsettled, Bool.false_eq_true, if_false]
      exact burnSteps_settled es _ rfl
    | ended =>
      have herr' : BurnEvent.playbackError ∈ es := by
        rcases List.mem_cons.mp herr with h | h
        · exact absurd h (by simp)
        · exact h
      simp only [List.foldl_cons, burnStep]
      by_cases hrec : st.recorderInited = true
      · rw [if_pos hrec]
        exact ih { st with recording := false } hrest hsettled herr'
      · rw [if_neg hrec]
        exact ih st hrest hsettled herr'

/-- C9: when the source fails before metadata ever loads (no
`loadedMetadata` event, at least one playback error), the burn job never
creates an encoder session, never starts recording, and surfaces exactly one
failure to the caller — the promise is settled rejected. -/
theorem c9_metadata_failure (events : List BurnEvent)
    (hmeta : ∀ e ∈ events, isMetadataEvent e = false)
    (herr : BurnEvent.playbackError ∈ events) :
    (burnRun events).recorderInited = false
      ∧ (burnRun events).recording = false
      ∧ (burnRun events).settled = true
      ∧ (burnRun events).failures = 1 := by
  have h1 := burnSteps_no_recorder events initialBurnState hmeta rfl rfl
  have h2 := burnSteps_no_metadata_error events initialBurnState hmeta rfl herr
  exact ⟨h1.1, h1.2, h2.1, h2.2⟩

/-- Witness for C9 on the one-event trace `[playbackError]`. -/
theorem c9_metadata_failure_witness :
    ((∀ e ∈ [BurnEvent.playbackError], isMetadataEvent e = false)
        ∧ BurnEvent.playbackError ∈ [BurnEvent.playbackError])
      ∧ ((burnRun [BurnEvent.playbackError]).recorderInited = false
          ∧ (burnRun [BurnEvent.playbackError]).recording = false
          ∧ (burnRun [BurnEvent.playbackError]).settled = true
          ∧ (burnRun [BurnEvent.playbackError]).failures = 1) :=
  ⟨⟨by decide, by decide⟩,
    c9_metadata_failure [BurnEvent.playbackError] (by decide) (by decide)⟩

/-- Witness for C6 at a concrete draw call: 1200×600 surface, font size 24,
position 10, opaque background — the first command is the background box. -/
theorem c6_box_geometry_witness :
    let measure := fun l : List Char => (l.length : ℚ)
    let style : SubtitleStyle :=
      { fontSize := 24, fontFamily := "Arial", color := "#fff",
        backgroundColor := "#000000", position := 10, textShadow := "none" }
    let scale := (600 : ℚ) / 600
    let fontSize := style.fontSize * scale
    let x := (1200 : ℚ) / 2
    let y := (600 : ℚ) * (1 - style.position / 100)
    let lines := wrapText measure "Hi".toList (1200 * 0.8)
    let boxWidth := ((lines.map measure).foldl max 0) + 2 * (fontSize * 0.6)
    let boxHeight := (lines.length : ℚ) * (fontSize * 1.25) + 2 * (fontSize * 0.3)
    style.backgroundColor ≠ "transparent"
      ∧ (drawSubtitleOnCanvas measure "Hi".toList style 1200 600).head?
          = some (CanvasOp.fillRect (x - boxWidth / 2)
              ((y + fontSize * 0.2) - boxHeight) boxWidth boxHeight) := by
  intro measure style scale fontSize x y lines boxWidth boxHeight
  exact ⟨by decide, (c6_box_geometry measure "Hi".toList style 1200 600).2 (by decide)⟩
